import Mathlib

/-!
Verification of the recurrence-rule resolver in monday.py (class Scheduler).

The resolver is a pure function of (rule text, today, anchor date).  We embed it
shallowly:

* characters are modelled as natural-number code points, strings as List Nat;
  case-insensitivity is modelled for the ASCII range, which covers the entire
  weekday/ordinal vocabulary of the program;
* calendar dates are a (year, month, day) structure ordered lexicographically,
  which coincides with the chronological order used by Python date objects;
  day arithmetic (timedelta) is iterated day stepping on the proleptic
  Gregorian calendar, exactly the semantics of datetime.date;
* the regular-expression searches of get_next_date are implemented as explicit
  leftmost scans; all alternations in the program patterns are prefix-unambiguous,
  so the deterministic scan coincides with the backtracking engine;
* Python exceptions (ValueError escaping from list.index or str.index) are
  modelled with Option in the helpers and Except in get_next_date, where
  Except.error () is an uncaught exception, Except.ok none is the explicit
  no-match result None, and Except.ok (some d) is a returned date;
* today is passed as an explicit parameter (the source reads date.today()).
-/

/-! ## Characters and case folding (ASCII) -/

/-- Lower-case an ASCII code point; other code points are unchanged. -/
def asciiLower (c : Nat) : Nat := if 65 ≤ c ∧ c ≤ 90 then c + 32 else c

/-- Upper-case an ASCII code point; other code points are unchanged. -/
def asciiUpper (c : Nat) : Nat := if 97 ≤ c ∧ c ≤ 122 then c - 32 else c

/-- Whitespace test for the regex class of blank characters. -/
def isWSb (c : Nat) : Bool := c = 32 || c = 9 || c = 10 || c = 13 || c = 11 || c = 12

/-- Digit test for the regex class of decimal digits. -/
def isDigitb (c : Nat) : Bool := 48 ≤ c && c ≤ 57

/-- Embedding of the Python str.capitalize method: first character upper-cased,
all remaining characters lower-cased. -/
def capitalize : List Nat → List Nat
  | [] => []
  | c :: cs => asciiUpper c :: cs.map asciiLower

/-- Embedding of the Python str.strip method: remove leading and trailing
whitespace. -/
def strip (s : List Nat) : List Nat :=
  ((s.dropWhile isWSb).reverse.dropWhile isWSb).reverse

/-! ## Vocabulary of the program (module constants WEEKDAYS and SERIES) -/

/-- Code points of the word Monday. -/
def wMonday : List Nat := [77, 111, 110, 100, 97, 121]
/-- Code points of the word Tuesday. -/
def wTuesday : List Nat := [84, 117, 101, 115, 100, 97, 121]
/-- Code points of the word Wednesday. -/
def wWednesday : List Nat := [87, 101, 100, 110, 101, 115, 100, 97, 121]
/-- Code points of the word Thursday. -/
def wThursday : List Nat := [84, 104, 117, 114, 115, 100, 97, 121]
/-- Code points of the word Friday. -/
def wFriday : List Nat := [70, 114, 105, 100, 97, 121]
/-- Code points of the word Saturday. -/
def wSaturday : List Nat := [83, 97, 116, 117, 114, 100, 97, 121]
/-- Code points of the word Sunday. -/
def wSunday : List Nat := [83, 117, 110, 100, 97, 121]
/-- Code points of the word First. -/
def wFirst : List Nat := [70, 105, 114, 115, 116]
/-- Code points of the word Second. -/
def wSecond : List Nat := [83, 101, 99, 111, 110, 100]
/-- Code points of the word Third. -/
def wThird : List Nat := [84, 104, 105, 114, 100]
/-- Code points of the word Fourth. -/
def wFourth : List Nat := [70, 111, 117, 114, 116, 104]
/-- Code points of the word Fifth. -/
def wFifth : List Nat := [70, 105, 102, 116, 104]
/-- Code points of the word Sixth. -/
def wSixth : List Nat := [83, 105, 120, 116, 104]
/-- Code points of the word Seventh. -/
def wSeventh : List Nat := [83, 101, 118, 101, 110, 116, 104]
/-- Code points of the word Eighth. -/
def wEighth : List Nat := [69, 105, 103, 104, 116, 104]
/-- Code points of the word Ninth. -/
def wNinth : List Nat := [78, 105, 110, 116, 104]
/-- Code points of the word Tenth. -/
def wTenth : List Nat := [84, 101, 110, 116, 104]
/-- Code points of the word Eleventh. -/
def wEleventh : List Nat := [69, 108, 101, 118, 101, 110, 116, 104]
/-- Code points of the word Twelfth. -/
def wTwelfth : List Nat := [84, 119, 101, 108, 102, 116, 104]
/-- Code points of the word Every. -/
def wEvery : List Nat := [69, 118, 101, 114, 121]
/-- Code points of the word Other. -/
def wOther : List Nat := [79, 116, 104, 101, 114]
/-- Code points of the word Last. -/
def wLast : List Nat := [76, 97, 115, 116]
/-- Code points of the word Month. -/
def wMonth : List Nat := [77, 111, 110, 116, 104]
/-- Code points of the word and. -/
def wAnd : List Nat := [97, 110, 100]
/-- Code points of the word or. -/
def wOr : List Nat := [111, 114]

/-- The module constant WEEKDAYS of monday.py. -/
def WEEKDAYS : List (List Nat) :=
  [wMonday, wTuesday, wWednesday, wThursday, wFriday, wSaturday, wSunday]

/-- The module constant SERIES of monday.py. -/
def SERIES : List (List Nat) :=
  [wFirst, wSecond, wThird, wFourth, wFifth, wSixth, wSeventh, wEighth,
   wNinth, wTenth, wEleventh, wTwelfth]

/-- The first five entries of SERIES, as sliced in get_next_date. -/
def SERIES5 : List (List Nat) := SERIES.take 5

/-- The string series_5_pattern built in get_next_date by joining the first five
SERIES entries with a vertical bar.  The buggy line 313 of the source indexes
into this string with str.index. -/
def series5Str : List Nat :=
  [70, 105, 114, 115, 116, 124, 83, 101, 99, 111, 110, 100, 124, 84, 104, 105,
   114, 100, 124, 70, 111, 117, 114, 116, 104, 124, 70, 105, 102, 116, 104]

/-! ## Generic string searching helpers -/

/-- Exact first index of a sublist inside a list, as the Python str.index method
computes it; none models the ValueError raised when the needle is absent. -/
def strIndexOf : List Nat → List Nat → Option Nat
  | hay, needle =>
    if needle.isPrefixOf hay then some 0
    else
      match hay with
      | [] => none
      | _ :: t => (strIndexOf t needle).map (· + 1)

/-- Exact index of an element in a list, as the Python list.index method
computes it; none models the ValueError raised when the element is absent. -/
def listIndexOf : List (List Nat) → List Nat → Option Nat
  | [], _ => none
  | x :: xs, t => if x = t then some 0 else (listIndexOf xs t).map (· + 1)

/-- Case-insensitive test that w is a prefix of s. -/
def isPrefixCI : List Nat → List Nat → Bool
  | [], _ => true
  | _ :: _, [] => false
  | c :: cs, d :: ds => (asciiLower c == asciiLower d) && isPrefixCI cs ds

/-- Case-insensitive containment test, the embedding of the Python expression
testing membership of a casefolded word in the casefolded phrase. -/
def containsCI (w : List Nat) : List Nat → Bool
  | [] => isPrefixCI w []
  | c :: cs => isPrefixCI w (c :: cs) || containsCI w cs

/-- Attempt to read the word w case-insensitively at the head of s; on success
return the actual matched text together with the remainder of s. -/
def tryWord (w s : List Nat) : Option (List Nat × List Nat) :=
  if isPrefixCI w s then some (s.take w.length, s.drop w.length) else none

/-- Try an ordered alternation of words at the head of s, in regex alternation
order; on success return the canonical word that matched, the actual matched
text, and the remainder.  All alternations used by the program are
prefix-unambiguous, so at most one word can match at a given position. -/
def tryWords : List (List Nat) → List Nat → Option (List Nat × List Nat × List Nat)
  | [], _ => none
  | w :: ws, s =>
    match tryWord w s with
    | some (t, r) => some (w, t, r)
    | none => tryWords ws s

/-- Consume one or more whitespace characters (greedy), the regex atom for
mandatory blank space between words; all program patterns follow it with a
word starting in a non-blank character, so the greedy reading is exact. -/
def ws1 : List Nat → Option (List Nat)
  | [] => none
  | c :: cs => if isWSb c then some (cs.dropWhile isWSb) else none

/-! ## Calendar dates -/

/-- A calendar date, as the Python datetime.date value used by the scheduler. -/
structure Date where
  year : Nat
  month : Nat
  day : Nat
deriving DecidableEq

/-- Gregorian leap-year test. -/
def isLeap (y : Nat) : Bool := (y % 4 == 0 && y % 100 != 0) || (y % 400 == 0)

/-- Number of days in a month of a given year. -/
def daysInMonth (y m : Nat) : Nat :=
  if m = 2 then (if isLeap y then 29 else 28)
  else if m = 4 ∨ m = 6 ∨ m = 9 ∨ m = 11 then 30
  else 31

/-- A structurally valid calendar date (Python dates always satisfy this). -/
def Date.Valid (d : Date) : Prop :=
  1 ≤ d.year ∧ 1 ≤ d.month ∧ d.month ≤ 12 ∧ 1 ≤ d.day ∧
    d.day ≤ daysInMonth d.year d.month

instance (d : Date) : Decidable d.Valid := by
  unfold Date.Valid; exact inferInstance

/-- Chronological (lexicographic) strict order on dates, the order used by
Python date comparison. -/
def Date.ltP (a b : Date) : Prop :=
  a.year < b.year ∨ (a.year = b.year ∧
    (a.month < b.month ∨ (a.month = b.month ∧ a.day < b.day)))

instance : LT Date := ⟨Date.ltP⟩

instance (a b : Date) : Decidable (a < b) :=
  inferInstanceAs (Decidable (a.year < b.year ∨ (a.year = b.year ∧
    (a.month < b.month ∨ (a.month = b.month ∧ a.day < b.day)))))

/-- Non-strict chronological order on dates. -/
def Date.leP (a b : Date) : Prop := a < b ∨ a = b

instance : LE Date := ⟨Date.leP⟩

instance (a b : Date) : Decidable (a ≤ b) :=
  inferInstanceAs (Decidable (a < b ∨ a = b))

/-- Cumulative day count before each month in a non-leap year. -/
def monthCum : Nat → Nat
  | 1 => 0
  | 2 => 31
  | 3 => 59
  | 4 => 90
  | 5 => 120
  | 6 => 151
  | 7 => 181
  | 8 => 212
  | 9 => 243
  | 10 => 273
  | 11 => 304
  | 12 => 334
  | _ => 0

/-- Days elapsed in year y strictly before month m. -/
def daysBeforeMonth (y m : Nat) : Nat :=
  monthCum m + (if 3 ≤ m ∧ isLeap y then 1 else 0)

/-- Leap days occurring in years strictly before year y. -/
def leapsBefore (y : Nat) : Nat := (y - 1) / 4 + (y - 1) / 400 - (y - 1) / 100

/-- Rata-die style day number of a date (day 1 is January 1 of year 1, a
Monday in the proleptic Gregorian calendar). -/
def toDays (d : Date) : Nat :=
  365 * (d.year - 1) + leapsBefore d.year + daysBeforeMonth d.year d.month + d.day

/-- Weekday number of a date with Monday = 0, as the Python weekday method. -/
def pyWeekday (d : Date) : Nat := (toDays d + 6) % 7

/-- The calendar day after d (the action of adding one day with timedelta). -/
def nextDay (d : Date) : Date :=
  if d.day < daysInMonth d.year d.month then ⟨d.year, d.month, d.day + 1⟩
  else if d.month < 12 then ⟨d.year, d.month + 1, 1⟩
  else ⟨d.year + 1, 1, 1⟩

/-- The calendar day before d (the action of subtracting one day with
timedelta). -/
def prevDay (d : Date) : Date :=
  if 1 < d.day then ⟨d.year, d.month, d.day - 1⟩
  else if 1 < d.month then ⟨d.year, d.month - 1, daysInMonth d.year (d.month - 1)⟩
  else ⟨d.year - 1, 12, 31⟩

/-- Adding a non-negative number of days to a date, the embedding of Python
date plus timedelta.  Every timedelta added in the scheduler is non-negative. -/
def addDays : Nat → Date → Date
  | 0, d => d
  | k + 1, d => addDays k (nextDay d)

/-- Difference of two dates in days, the embedding of Python date subtraction
yielding a timedelta whose days field this is. -/
def dateDiff (a b : Date) : Int := (toDays a : Int) - (toDays b : Int)

/-! ## The regex searches of get_next_date

Each pattern of the source is compiled with the ignore-case flag and applied
with re.search, i.e. tried at every position from the left; the first position
allowing a full match wins.  Every alternation appearing in the patterns is
prefix-unambiguous (no alternative is a case-insensitive prefix of another),
and every mandatory blank run is followed by a word starting in a non-blank
character, so a deterministic scan reproduces the backtracking engine exactly.
The searchers return, besides the captured group text, the canonical
vocabulary word that matched; the resolver itself only uses the group text. -/

/-- Single-position attempt for the nth-weekday pattern: an ordinal among the
first five SERIES words, one or more blanks, then a weekday name. -/
def nthDayHere (s : List Nat) : Option ((List Nat × List Nat) × (List Nat × List Nat)) :=
  match tryWords SERIES5 s with
  | none => none
  | some (o, ot, r) =>
    match ws1 r with
    | none => none
    | some r2 =>
      match tryWords WEEKDAYS r2 with
      | none => none
      | some (w, wt, _) => some ((o, ot), (w, wt))

/-- Leftmost search for the nth-weekday pattern. -/
def searchNthDay : List Nat → Option ((List Nat × List Nat) × (List Nat × List Nat))
  | [] => none
  | c :: cs =>
    match nthDayHere (c :: cs) with
    | some r => some r
    | none => searchNthDay cs

/-- Single-position attempt for the nth-month pattern: an ordinal among the
twelve SERIES words, one or more blanks, then the word Month. -/
def nthMonthHere (s : List Nat) : Option (List Nat × List Nat) :=
  match tryWords SERIES s with
  | none => none
  | some (o, ot, r) =>
    match ws1 r with
    | none => none
    | some r2 => if isPrefixCI wMonth r2 then some (o, ot) else none

/-- Leftmost search for the nth-month pattern. -/
def searchNthMonth : List Nat → Option (List Nat × List Nat)
  | [] => none
  | c :: cs =>
    match nthMonthHere (c :: cs) with
    | some r => some r
    | none => searchNthMonth cs

/-- Single-position attempt for the every-other-weekday pattern. -/
def otherHere (s : List Nat) : Option (List Nat × List Nat) :=
  match tryWord wEvery s with
  | none => none
  | some (_, r) =>
    match ws1 r with
    | none => none
    | some r2 =>
      match tryWord wOther r2 with
      | none => none
      | some (_, r3) =>
        match ws1 r3 with
        | none => none
        | some r4 =>
          match tryWords WEEKDAYS r4 with
          | none => none
          | some (w, wt, _) => some (w, wt)

/-- Leftmost search for the every-other-weekday pattern. -/
def searchOther : List Nat → Option (List Nat × List Nat)
  | [] => none
  | c :: cs =>
    match otherHere (c :: cs) with
    | some r => some r
    | none => searchOther cs

/-- Single-position attempt for the every-last-weekday pattern. -/
def lastHere (s : List Nat) : Option (List Nat × List Nat) :=
  match tryWord wEvery s with
  | none => none
  | some (_, r) =>
    match ws1 r with
    | none => none
    | some r2 =>
      match tryWord wLast r2 with
      | none => none
      | some (_, r3) =>
        match ws1 r3 with
        | none => none
        | some r4 =>
          match tryWords WEEKDAYS r4 with
          | none => none
          | some (w, wt, _) => some (w, wt)

/-- Leftmost search for the every-last-weekday pattern. -/
def searchLast : List Nat → Option (List Nat × List Nat)
  | [] => none
  | c :: cs =>
    match lastHere (c :: cs) with
    | some r => some r
    | none => searchLast cs

/-- Tail recogniser for the every-weekday-list pattern: after the word Every
and its following blanks, the rest of the string (up to its end, the dollar
anchor) must be a sequence of weekday names, commas, the words and or or, and
blank runs.  The fuel argument bounds recursion; it is initialised with the
length of the string and every step consumes at least one character, so the
fuel never runs out before the string does. -/
def everyTailF : Nat → List Nat → Bool
  | _, [] => true
  | 0, _ :: _ => false
  | fuel + 1, c :: cs =>
    match tryWords WEEKDAYS (c :: cs) with
    | some (_, _, r) => everyTailF fuel r
    | none =>
      if c = 44 then everyTailF fuel cs
      else
        match tryWord wAnd (c :: cs) with
        | some (_, r) => everyTailF fuel r
        | none =>
          match tryWord wOr (c :: cs) with
          | some (_, r) => everyTailF fuel r
          | none => if isWSb c then everyTailF fuel cs else false

/-- Single-position attempt for the every-weekday-list pattern. -/
def everyHere (s : List Nat) : Bool :=
  match tryWord wEvery s with
  | none => false
  | some (_, r) =>
    match ws1 r with
    | none => false
    | some r2 => everyTailF r2.length r2

/-- Leftmost search for the every-weekday-list pattern (a pure match test: the
source uses no groups of this pattern). -/
def everyMatch : List Nat → Bool
  | [] => false
  | c :: cs => everyHere (c :: cs) || everyMatch cs

/-- Helper for findNums: scan the string keeping the value of the digit run in
progress. -/
def findNumsGo : List Nat → Option Nat → List Nat
  | [], none => []
  | [], some v => [v]
  | c :: cs, acc =>
    if isDigitb c then findNumsGo cs (some ((acc.getD 0) * 10 + (c - 48)))
    else
      match acc with
      | some v => v :: findNumsGo cs none
      | none => findNumsGo cs none

/-- Embedding of day_pattern.findall followed by int conversion: the values of
all maximal digit runs of the string, in order. -/
def findNums (s : List Nat) : List Nat := findNumsGo s none

/-! ## The Scheduler helpers -/

/-- Embedding of Scheduler.get_next_weekday.  The source looks the weekday
string up with the exact, case-sensitive list.index; a failing lookup raises
ValueError, modelled by none.  Otherwise the result is from_date plus
(index - from_date.weekday() + 7) mod 7 days. -/
def get_next_weekday (weekday : List Nat) (from_date : Date) : Option Date :=
  match listIndexOf WEEKDAYS weekday with
  | none => none
  | some i =>
    some (addDays (((i : Int) - (pyWeekday from_date : Int) + 7) % 7).toNat from_date)

/-- Embedding of Scheduler.get_first_day_next_month. -/
def get_first_day_next_month (from_date : Date) : Date :=
  if from_date.month = 12 then ⟨from_date.year + 1, 1, 1⟩
  else ⟨from_date.year, from_date.month + 1, 1⟩

/-- Embedding of Scheduler.get_next_every_other_weekday: the next occurrence of
the weekday, skipped one week ahead when fewer than seven days have passed
since the existing date. -/
def get_next_every_other_weekday (weekday : List Nat) (today_date existing_date : Date) :
    Option Date :=
  match get_next_weekday weekday today_date with
  | none => none
  | some next_weekday =>
    some (if dateDiff today_date existing_date < 7 then addDays 7 next_weekday
          else next_weekday)

/-- Embedding of Scheduler.get_next_every_nth_weekday.  All call sites of the
source pass n at least 1, and the claims are stated for n at least 1, so the
timedelta factor n - 1 is the truncated natural subtraction. -/
def get_next_every_nth_weekday (weekday : List Nat) (today_date : Date) (n : Nat) :
    Option Date :=
  match get_next_weekday weekday ⟨today_date.year, today_date.month, 1⟩ with
  | none => none
  | some first_weekday =>
    let nth_weekday := if n = 1 then first_weekday else addDays (7 * (n - 1)) first_weekday
    if nth_weekday < today_date then
      match get_next_weekday weekday (get_first_day_next_month today_date) with
      | none => none
      | some fw2 => some (if n = 1 then fw2 else addDays (7 * (n - 1)) fw2)
    else some nth_weekday

/-! ## The resolver get_next_date

The source tries the six forms in a fixed order; we split the chain after the
first two forms so that the fall-through of the nth-month form (a match with no
embedded digits and a non-future anchor) is a named function. -/

/-- Iterated application of get_first_day_next_month, the loop of the nth-month
form. -/
def iterFDNM : Nat → Date → Date
  | 0, d => d
  | k + 1, d => iterFDNM k (get_first_day_next_month d)

/-- Date produced by the digits branch of the nth-month form: day 1 of the
current month advanced n months, then the replace call on the requested day
with the ValueError handler clamping to the last day of the reached month. -/
def nthMonthDate (today : Date) (n day : Nat) : Date :=
  let c := iterFDNM n ⟨today.year, today.month, 1⟩
  if 1 ≤ day ∧ day ≤ daysInMonth c.year c.month then ⟨c.year, c.month, day⟩
  else prevDay (get_first_day_next_month c)

/-- Candidate date of the bare day-of-month form for one extracted integer:
the replace call on today with the requested day, the roll to the next month
when the date has passed, and the ValueError handler that yields the last day
of the current month whichever replace call raised. -/
def bareDayCandidate (today : Date) (day : Nat) : Date :=
  if 1 ≤ day ∧ day ≤ daysInMonth today.year today.month then
    let next_date : Date := ⟨today.year, today.month, day⟩
    if next_date < today then
      (let fn := get_first_day_next_month today
       if 1 ≤ day ∧ day ≤ daysInMonth fn.year fn.month then ⟨fn.year, fn.month, day⟩
       else prevDay (get_first_day_next_month today))
    else next_date
  else prevDay (get_first_day_next_month today)

/-- Loop of the every-weekday-list form: for each weekday name contained
case-insensitively in the phrase, compute its next occurrence and keep the
earliest. -/
def everyLoop (f : List Nat) (today : Date) :
    List (List Nat) → Option Date → Except Unit (Option Date)
  | [], closest => .ok closest
  | w :: ws, closest =>
    if containsCI w f then
      match get_next_weekday w today with
      | none => .error ()
      | some nw =>
        match closest with
        | none => everyLoop f today ws (some nw)
        | some c => everyLoop f today ws (some (if nw < c then nw else c))
    else everyLoop f today ws closest

/-- Forms three to six of get_next_date: every-other-weekday,
every-last-weekday, every-weekday-list, bare day-of-month list, then the
no-match result. -/
def resolveFrom3 (f : List Nat) (today existing_date : Date) : Except Unit (Option Date) :=
  match searchOther f with
  | some (_, wt) =>
    if today < existing_date then .ok (some existing_date)
    else
      match get_next_every_other_weekday wt today existing_date with
      | none => .error ()
      | some d => .ok (some d)
  | none =>
    match searchLast f with
    | some (_, wt) =>
      match get_next_every_nth_weekday wt today 4 with
      | none => .error ()
      | some fourth =>
        match get_next_every_nth_weekday wt today 5 with
        | none => .error ()
        | some fifth => .ok (some (if fifth < fourth then fifth else fourth))
    | none =>
      if everyMatch f then everyLoop f today WEEKDAYS none
      else
        match findNums f with
        | [] => .ok none
        | d :: ds =>
          .ok (some (ds.foldl
            (fun c x => if bareDayCandidate today x < c then bareDayCandidate today x else c)
            (bareDayCandidate today d)))

/-- Form two of get_next_date: the nth-month form.  The ordinal rank is taken
from the exact list.index of the capitalised capture in SERIES (line 320 of
the source, the correct lookup); a future anchor short-circuits; with no
embedded digits the form falls through to the remaining forms. -/
def resolveFrom2 (f : List Nat) (today existing_date : Date) : Except Unit (Option Date) :=
  match searchNthMonth f with
  | some (_, ot) =>
    match listIndexOf SERIES (capitalize ot) with
    | none => .error ()
    | some k =>
      if today < existing_date then .ok (some existing_date)
      else
        match findNums f with
        | [] => resolveFrom3 f today existing_date
        | d :: ds => .ok (some (nthMonthDate today (k + 1) (ds.foldl Nat.min d)))
  | none => resolveFrom3 f today existing_date

/-- Embedding of Scheduler.get_next_date.  The current date is an explicit
parameter (the source reads date.today()).  The first form computes its rank
with str.index into the joined pattern string series5Str, exactly as line 313
of the source does. -/
def get_next_date (frequency : List Nat) (today existing_date : Date) :
    Except Unit (Option Date) :=
  let f := strip frequency
  match searchNthDay f with
  | some ((_, ot), (_, wt)) =>
    match strIndexOf series5Str (capitalize ot) with
    | none => .error ()
    | some i =>
      match get_next_every_nth_weekday wt today (i + 1) with
      | none => .error ()
      | some d => .ok (some d)
  | none => resolveFrom2 f today existing_date

/-! ## Order lemmas for dates -/

theorem date_lt_mk {y1 m1 d1 y2 m2 d2 : Nat} :
    (⟨y1, m1, d1⟩ : Date) < ⟨y2, m2, d2⟩ ↔
      (y1 < y2 ∨ (y1 = y2 ∧ (m1 < m2 ∨ (m1 = m2 ∧ d1 < d2)))) := Iff.rfl

theorem date_le_def {a b : Date} : a ≤ b ↔ (a < b ∨ a = b) := Iff.rfl

theorem date_lt_trans {a b c : Date} (h1 : a < b) (h2 : b < c) : a < c := by
  obtain ⟨y1, m1, d1⟩ := a; obtain ⟨y2, m2, d2⟩ := b; obtain ⟨y3, m3, d3⟩ := c
  simp only [date_lt_mk] at h1 h2 ⊢
  omega

theorem date_lt_asymm {a b : Date} (h : a < b) : ¬ b < a := by
  obtain ⟨y1, m1, d1⟩ := a; obtain ⟨y2, m2, d2⟩ := b
  simp only [date_lt_mk] at h ⊢
  omega

theorem date_le_refl (a : Date) : a ≤ a := Or.inr rfl

theorem date_le_trans {a b c : Date} (h1 : a ≤ b) (h2 : b ≤ c) : a ≤ c := by
  rcases h1 with h1 | rfl
  · rcases h2 with h2 | rfl
    · exact Or.inl (date_lt_trans h1 h2)
    · exact Or.inl h1
  · exact h2

theorem date_lt_of_lt_of_le {a b c : Date} (h1 : a < b) (h2 : b ≤ c) : a < c := by
  rcases h2 with h2 | rfl
  · exact date_lt_trans h1 h2
  · exact h1

theorem date_not_lt_of_le {a b : Date} (h : a ≤ b) : ¬ b < a := by
  rcases h with h | rfl
  · exact date_lt_asymm h
  · obtain ⟨y, m, d⟩ := a
    simp only [date_lt_mk]
    omega

theorem date_not_lt_of_lt {a b : Date} (h : a < b) : ¬ b < a := date_lt_asymm h

/-! ## Day stepping -/

theorem one_le_daysInMonth (y m : Nat) : 1 ≤ daysInMonth y m := by
  unfold daysInMonth
  split_ifs <;> omega

theorem daysInMonth_le_31 (y m : Nat) : daysInMonth y m ≤ 31 := by
  unfold daysInMonth
  split_ifs <;> omega

theorem lt_nextDay (d : Date) : d < nextDay d := by
  obtain ⟨y, m, dd⟩ := d
  unfold nextDay
  dsimp only
  split_ifs <;> simp only [date_lt_mk, true_and] <;> omega

theorem le_addDays (k : Nat) (d : Date) : d ≤ addDays k d := by
  induction k generalizing d with
  | zero => exact date_le_refl d
  | succ n ih =>
    show d ≤ addDays n (nextDay d)
    exact date_le_trans (Or.inl (lt_nextDay d)) (ih (nextDay d))

theorem lt_addDays_of_pos {k : Nat} (hk : 1 ≤ k) (d : Date) : d < addDays k d := by
  obtain ⟨j, rfl⟩ : ∃ j, k = j + 1 := ⟨k - 1, by omega⟩
  show d < addDays j (nextDay d)
  exact date_lt_of_lt_of_le (lt_nextDay d) (le_addDays j (nextDay d))

theorem addDays_add (a b : Nat) (d : Date) : addDays (a + b) d = addDays a (addDays b d) := by
  induction b generalizing d with
  | zero => rfl
  | succ n ih =>
    have h1 : a + (n + 1) = (a + n) + 1 := by omega
    rw [h1]
    show addDays (a + n) (nextDay d) = addDays a (addDays n (nextDay d))
    exact ih (nextDay d)

theorem addDays_le_addDays {j k : Nat} (h : j ≤ k) (d : Date) :
    addDays j d ≤ addDays k d := by
  have h1 : k = (k - j) + j := by omega
  rw [h1, addDays_add]
  exact le_addDays (k - j) (addDays j d)

/-! ## Day counting -/

theorem year_mk (y m d : Nat) : (Date.mk y m d).year = y := rfl

theorem month_mk (y m d : Nat) : (Date.mk y m d).month = m := rfl

theorem day_mk (y m d : Nat) : (Date.mk y m d).day = d := rfl

theorem valid_mk {y m d : Nat} :
    (Date.mk y m d).Valid ↔
      (1 ≤ y ∧ 1 ≤ m ∧ m ≤ 12 ∧ 1 ≤ d ∧ d ≤ daysInMonth y m) := Iff.rfl

theorem valid_nextDay {d : Date} (h : d.Valid) : (nextDay d).Valid := by
  obtain ⟨y, m, dd⟩ := d
  rw [valid_mk] at h
  obtain ⟨h1, h2, h3, h4, h5⟩ := h
  unfold nextDay
  simp only [year_mk, month_mk, day_mk]
  split_ifs with ha hb
  · rw [valid_mk]
    exact ⟨h1, h2, h3, by omega, by omega⟩
  · rw [valid_mk]
    have := one_le_daysInMonth y (m + 1)
    exact ⟨h1, by omega, by omega, by omega, this⟩
  · rw [valid_mk]
    have := one_le_daysInMonth (y + 1) 1
    exact ⟨by omega, by omega, by omega, by omega, this⟩

theorem leapsBefore_step (y : Nat) (h : 1 ≤ y) :
    leapsBefore (y + 1) = leapsBefore y + (if isLeap y then 1 else 0) := by
  unfold leapsBefore isLeap
  split_ifs with hl
  · simp only [Bool.or_eq_true, Bool.and_eq_true, beq_iff_eq, bne_iff_ne, ne_eq] at hl
    omega
  · simp only [Bool.or_eq_true, Bool.and_eq_true, beq_iff_eq, bne_iff_ne, ne_eq,
      not_or, not_and, not_not] at hl
    omega

theorem daysBeforeMonth_step (y m : Nat) (h1 : 1 ≤ m) (h2 : m ≤ 11) :
    daysBeforeMonth y (m + 1) = daysBeforeMonth y m + daysInMonth y m := by
  interval_cases m <;> by_cases hy : isLeap y = true <;>
    simp [daysBeforeMonth, monthCum, daysInMonth, hy]

theorem toDays_mk (y m d : Nat) :
    toDays ⟨y, m, d⟩ = 365 * (y - 1) + leapsBefore y + daysBeforeMonth y m + d := rfl

theorem toDays_nextDay {d : Date} (h : d.Valid) : toDays (nextDay d) = toDays d + 1 := by
  obtain ⟨y, m, dd⟩ := d
  rw [valid_mk] at h
  obtain ⟨h1, h2, h3, h4, h5⟩ := h
  unfold nextDay
  simp only [year_mk, month_mk, day_mk]
  split_ifs with ha hb
  · simp only [toDays_mk]
    omega
  · have hdd : dd = daysInMonth y m := by omega
    have hstep := daysBeforeMonth_step y m (by omega) (by omega)
    simp only [toDays_mk]
    omega
  · have hm : m = 12 := by omega
    subst hm
    have hdim : daysInMonth y 12 = 31 := by simp [daysInMonth]
    have hdd : dd = 31 := by omega
    subst hdd
    have hleap := leapsBefore_step y h1
    have hb1 : daysBeforeMonth (y + 1) 1 = 0 := by simp [daysBeforeMonth, monthCum]
    have hb12 : daysBeforeMonth y 12 = 334 + (if isLeap y then 1 else 0) := by
      simp [daysBeforeMonth, monthCum]
    simp only [toDays_mk]
    split_ifs at hleap hb12 <;> omega

theorem toDays_addDays {d : Date} (h : d.Valid) (k : Nat) :
    toDays (addDays k d) = toDays d + k ∧ (addDays k d).Valid := by
  induction k generalizing d with
  | zero => exact ⟨rfl, h⟩
  | succ n ih =>
    have hv := valid_nextDay h
    have hd := toDays_nextDay h
    have hrec := ih hv
    constructor
    · show toDays (addDays n (nextDay d)) = toDays d + (n + 1)
      omega
    · exact hrec.2

theorem pyWeekday_addDays {d : Date} (h : d.Valid) (k : Nat) :
    pyWeekday (addDays k d) = (pyWeekday d + k) % 7 := by
  have := (toDays_addDays h k).1
  unfold pyWeekday
  omega

theorem pyWeekday_lt_7 (d : Date) : pyWeekday d < 7 := by
  unfold pyWeekday
  omega

/-! ## Properties of the weekday step helper -/

theorem listIndexOf_lt_length {l : List (List Nat)} {t : List Nat} {i : Nat}
    (h : listIndexOf l t = some i) : i < l.length := by
  induction l generalizing i with
  | nil => simp [listIndexOf] at h
  | cons x xs ih =>
    unfold listIndexOf at h
    split_ifs at h
    · simp at h
      simp only [List.length_cons]
      omega
    · cases hr : listIndexOf xs t with
      | none => rw [hr] at h; simp at h
      | some j =>
        rw [hr] at h
        simp at h
        have := ih hr
        simp [List.length_cons]
        omega

theorem get_next_weekday_eq {t : List Nat} {i : Nat}
    (hi : listIndexOf WEEKDAYS t = some i) (d : Date) :
    get_next_weekday t d =
      some (addDays (((i : Int) - (pyWeekday d : Int) + 7) % 7).toNat d) := by
  unfold get_next_weekday
  rw [hi]

theorem nw_offset_le_6 (i pw : Nat) : (((i : Int) - pw + 7) % 7).toNat ≤ 6 := by
  omega

theorem nw_offset_mod {i pw : Nat} (hi : i < 7) (hpw : pw < 7) :
    (pw + (((i : Int) - pw + 7) % 7).toNat) % 7 = i := by
  omega

theorem nw_offset_zero {i pw : Nat} (hpw : pw = i) : (((i : Int) - pw + 7) % 7).toNat = 0 := by
  omega

/-- Core specification of get_next_weekday: with a successful weekday lookup
and a valid starting date, the result is the starting date advanced by at most
six days, lands on the requested weekday, and is the start itself when the
start already falls on that weekday. -/
theorem get_next_weekday_spec {t : List Nat} {i : Nat}
    (hi : listIndexOf WEEKDAYS t = some i) {d : Date} (hd : d.Valid) :
    ∃ off : Nat, off ≤ 6 ∧ get_next_weekday t d = some (addDays off d) ∧
      pyWeekday (addDays off d) = i ∧ (pyWeekday d = i → off = 0) := by
  refine ⟨(((i : Int) - (pyWeekday d : Int) + 7) % 7).toNat,
    nw_offset_le_6 i (pyWeekday d), get_next_weekday_eq hi d, ?_, ?_⟩
  · rw [pyWeekday_addDays hd]
    have hi7 : i < 7 := by
      have := listIndexOf_lt_length hi
      simpa [WEEKDAYS] using this
    exact nw_offset_mod hi7 (pyWeekday_lt_7 d)
  · intro h
    exact nw_offset_zero h

theorem get_next_weekday_isSome {t : List Nat} (d : Date) :
    (get_next_weekday t d).isSome = (listIndexOf WEEKDAYS t).isSome := by
  unfold get_next_weekday
  cases listIndexOf WEEKDAYS t <;> rfl

/-! ## Properties of the month helpers -/

theorem lt_fdnm (d : Date) : d < get_first_day_next_month d := by
  obtain ⟨y, m, dd⟩ := d
  unfold get_first_day_next_month
  dsimp only
  split_ifs <;> simp only [date_lt_mk, true_and] <;> omega

theorem fdnm_valid {d : Date} (h : d.Valid) : (get_first_day_next_month d).Valid := by
  obtain ⟨y, m, dd⟩ := d
  rw [valid_mk] at h
  unfold get_first_day_next_month
  dsimp only
  split_ifs with hm
  · rw [valid_mk]
    have := one_le_daysInMonth (y + 1) 1
    exact ⟨by omega, by omega, by omega, by omega, this⟩
  · rw [valid_mk]
    have := one_le_daysInMonth y (m + 1)
    exact ⟨by omega, by omega, by omega, by omega, this⟩

theorem replace1_valid {d : Date} (h : d.Valid) :
    (Date.mk d.year d.month 1).Valid := by
  obtain ⟨y, m, dd⟩ := d
  dsimp only
  rw [valid_mk] at h ⊢
  have := one_le_daysInMonth y m
  exact ⟨by omega, by omega, by omega, by omega, this⟩

theorem prevDay_fdnm (d : Date) (h : d.Valid) :
    prevDay (get_first_day_next_month d) =
      ⟨d.year, d.month, daysInMonth d.year d.month⟩ := by
  obtain ⟨y, m, dd⟩ := d
  rw [valid_mk] at h
  unfold get_first_day_next_month
  dsimp only
  split_ifs with hm
  · subst hm
    have hdim : daysInMonth y 12 = 31 := by simp [daysInMonth]
    unfold prevDay
    dsimp only
    rw [if_neg (by omega), if_neg (by omega)]
    simp [Date.mk.injEq, hdim]
  · unfold prevDay
    dsimp only
    rw [if_neg (by omega), if_pos (by omega)]
    simp [Date.mk.injEq]

/-! ## Lemmas about case-insensitive matching and capitalisation -/

theorem isPrefixCI_lower {w s : List Nat} (h : isPrefixCI w s = true) :
    (s.take w.length).map asciiLower = w.map asciiLower := by
  induction w generalizing s with
  | nil => simp
  | cons c cs ih =>
    cases s with
    | nil => simp [isPrefixCI] at h
    | cons d ds =>
      simp only [isPrefixCI, Bool.and_eq_true, beq_iff_eq] at h
      simp only [List.length_cons, List.take_succ_cons, List.map_cons, List.cons.injEq]
      exact ⟨h.1.symm, ih h.2⟩

theorem tryWord_inv {w s t r : List Nat} (h : tryWord w s = some (t, r)) :
    t.map asciiLower = w.map asciiLower := by
  unfold tryWord at h
  split_ifs at h with hp
  simp only [Option.some.injEq, Prod.mk.injEq] at h
  rw [← h.1]
  exact isPrefixCI_lower hp

theorem tryWords_inv {ws : List (List Nat)} {s w t r : List Nat}
    (h : tryWords ws s = some (w, t, r)) :
    w ∈ ws ∧ t.map asciiLower = w.map asciiLower := by
  induction ws with
  | nil => simp [tryWords] at h
  | cons x xs ih =>
    unfold tryWords at h
    cases hx : tryWord x s with
    | none =>
      rw [hx] at h
      have := ih h
      exact ⟨List.mem_cons_of_mem x this.1, this.2⟩
    | some p =>
      obtain ⟨t0, r0⟩ := p
      rw [hx] at h
      simp only [Option.some.injEq, Prod.mk.injEq] at h
      obtain ⟨rfl, rfl, rfl⟩ := h
      exact ⟨List.mem_cons_self x xs, tryWord_inv hx⟩

theorem asciiUpper_congr {a b : Nat} (h : asciiLower a = asciiLower b) :
    asciiUpper a = asciiUpper b := by
  unfold asciiLower at h
  unfold asciiUpper
  split_ifs at h ⊢ <;> omega

theorem capitalize_congr {t w : List Nat} (h : t.map asciiLower = w.map asciiLower) :
    capitalize t = capitalize w := by
  cases t with
  | nil =>
    cases w with
    | nil => rfl
    | cons b bs => simp at h
  | cons a as =>
    cases w with
    | nil => simp at h
    | cons b bs =>
      simp only [List.map_cons, List.cons.injEq] at h
      simp only [capitalize, List.cons.injEq]
      exact ⟨asciiUpper_congr h.1, h.2⟩

theorem listIndexOf_isSome_of_mem {l : List (List Nat)} {t : List Nat} (h : t ∈ l) :
    (listIndexOf l t).isSome = true := by
  induction l with
  | nil => simp at h
  | cons x xs ih =>
    unfold listIndexOf
    split_ifs with hx
    · rfl
    · have hmem : t ∈ xs := by
        rcases List.mem_cons.mp h with h1 | h1
        · exact absurd h1.symm hx
        · exact h1
      cases hr : listIndexOf xs t with
      | none => rw [hr] at ih; simp [ih hmem] at *
      | some j => simp

theorem capitalize_fixed_series {w : List Nat} (h : w ∈ SERIES) : capitalize w = w := by
  fin_cases h <;> rfl

/-- Inversion for the nth-month search: a successful search yields a canonical
SERIES word together with a capture that lower-cases to it. -/
theorem searchNthMonth_inv {s o t : List Nat} (h : searchNthMonth s = some (o, t)) :
    o ∈ SERIES ∧ t.map asciiLower = o.map asciiLower := by
  induction s with
  | nil => simp [searchNthMonth] at h
  | cons c cs ih =>
    unfold searchNthMonth at h
    cases hh : nthMonthHere (c :: cs) with
    | none => rw [hh] at h; exact ih h
    | some p =>
      rw [hh] at h
      simp only [Option.some.injEq] at h
      subst h
      unfold nthMonthHere at hh
      cases htw : tryWords SERIES (c :: cs) with
      | none => rw [htw] at hh; simp at hh
      | some q =>
        obtain ⟨w0, t0, r0⟩ := q
        simp only [htw] at hh
        cases hw : ws1 r0 with
        | none => simp only [hw] at hh; exact absurd hh (by simp)
        | some r2 =>
          simp only [hw] at hh
          split_ifs at hh
          simp only [Option.some.injEq, Prod.mk.injEq] at hh
          obtain ⟨rfl, rfl⟩ := hh
          exact tryWords_inv htw

/-- The SERIES lookup performed by the nth-month form of the resolver always
succeeds: the capitalised capture is the canonical ordinal word. -/
theorem searchNthMonth_index {s o t : List Nat} (h : searchNthMonth s = some (o, t)) :
    ∃ k, listIndexOf SERIES (capitalize t) = some k := by
  obtain ⟨hmem, hlow⟩ := searchNthMonth_inv h
  have hcap : capitalize t = o := by
    rw [capitalize_congr hlow]
    exact capitalize_fixed_series hmem
  rw [hcap]
  have := listIndexOf_isSome_of_mem hmem
  cases hr : listIndexOf SERIES o with
  | none => rw [hr] at this; simp at this
  | some k => exact ⟨k, rfl⟩

/-! ## Minimum of a list of dates -/

/-- Fold keeping the earliest date, seeded with a first candidate; this is the
accumulator pattern of the source loops. -/
def foldMinD (c : Date) (l : List Date) : Date :=
  l.foldl (fun a x => if x < a then x else a) c

/-- Earliest date of a list (none for the empty list), matching the loops of
the source that keep the closest date. -/
def dateListMin : List Date → Option Date
  | [] => none
  | x :: xs => some (foldMinD x xs)

/-! ## The loop of the every-weekday-list form computes a minimum -/

theorem everyLoop_some (f : List Nat) (T : Date) :
    ∀ L : List (List Nat), (∀ w ∈ L, (listIndexOf WEEKDAYS w).isSome = true) →
      ∀ c : Date, everyLoop f T L (some c) =
        .ok (some (foldMinD c
          ((L.filter fun w => containsCI w f).filterMap fun w => get_next_weekday w T))) := by
  intro L
  induction L with
  | nil => intro _ c; rfl
  | cons w ws ih =>
    intro hL c
    have hw : (get_next_weekday w T).isSome = true := by
      rw [get_next_weekday_isSome]
      exact hL w (List.mem_cons_self w ws)
    by_cases hc : containsCI w f = true
    · obtain ⟨nw, hnw⟩ := Option.isSome_iff_exists.mp hw
      have step : everyLoop f T (w :: ws) (some c) =
          everyLoop f T ws (some (if nw < c then nw else c)) := by
        conv_lhs => unfold everyLoop
        rw [if_pos hc, hnw]
      rw [step, ih (fun x hx => hL x (List.mem_cons_of_mem w hx))]
      have hfil : (w :: ws).filter (fun x => containsCI x f) =
          w :: ws.filter (fun x => containsCI x f) := by
        simp [List.filter_cons, hc]
      rw [hfil]
      simp only [List.filterMap_cons, hnw]
      rfl
    · have step : everyLoop f T (w :: ws) (some c) = everyLoop f T ws (some c) := by
        conv_lhs => unfold everyLoop
        rw [if_neg hc]
      rw [step, ih (fun x hx => hL x (List.mem_cons_of_mem w hx))]
      have hfil : (w :: ws).filter (fun x => containsCI x f) =
          ws.filter (fun x => containsCI x f) := by
        simp [List.filter_cons, hc]
      rw [hfil]

theorem everyLoop_none (f : List Nat) (T : Date) :
    ∀ L : List (List Nat), (∀ w ∈ L, (listIndexOf WEEKDAYS w).isSome = true) →
      everyLoop f T L none =
        .ok (dateListMin
          ((L.filter fun w => containsCI w f).filterMap fun w => get_next_weekday w T)) := by
  intro L
  induction L with
  | nil => intro _; rfl
  | cons w ws ih =>
    intro hL
    have hw : (get_next_weekday w T).isSome = true := by
      rw [get_next_weekday_isSome]
      exact hL w (List.mem_cons_self w ws)
    by_cases hc : containsCI w f = true
    · obtain ⟨nw, hnw⟩ := Option.isSome_iff_exists.mp hw
      have step : everyLoop f T (w :: ws) none = everyLoop f T ws (some nw) := by
        conv_lhs => unfold everyLoop
        rw [if_pos hc, hnw]
      rw [step, everyLoop_some f T ws (fun x hx => hL x (List.mem_cons_of_mem w hx))]
      have hfil : (w :: ws).filter (fun x => containsCI x f) =
          w :: ws.filter (fun x => containsCI x f) := by
        simp [List.filter_cons, hc]
      rw [hfil]
      simp only [List.filterMap_cons, hnw]
      rfl
    · have step : everyLoop f T (w :: ws) none = everyLoop f T ws none := by
        conv_lhs => unfold everyLoop
        rw [if_neg hc]
      rw [step, ih (fun x hx => hL x (List.mem_cons_of_mem w hx))]
      have hfil : (w :: ws).filter (fun x => containsCI x f) =
          ws.filter (fun x => containsCI x f) := by
        simp [List.filter_cons, hc]
      rw [hfil]

theorem weekdays_index_isSome : ∀ w ∈ WEEKDAYS, (listIndexOf WEEKDAYS w).isSome = true := by
  decide

theorem nth_weekday_isSome {t : List Nat} {i : Nat}
    (hi : listIndexOf WEEKDAYS t = some i) (T : Date) (n : Nat) :
    (get_next_every_nth_weekday t T n).isSome = true := by
  unfold get_next_every_nth_weekday
  simp only [get_next_weekday_eq hi]
  split_ifs <;> rfl

/-! ## Specification-side definitions for the claims

These definitions transcribe the wording of the specification (or, for the
corrected claims, of the amended wording); the theorems below compare the
code embedding above against them. -/

/-- Result described by the specification for the every-weekday-list form: for
every weekday name contained case-insensitively in the phrase, the next
occurrence on or after today, and the earliest across all matches (none when
no weekday name occurs in the phrase). -/
def specEveryResult (f : List Nat) (today : Date) : Option Date :=
  dateListMin
    ((WEEKDAYS.filter fun w => containsCI w f).filterMap fun w => get_next_weekday w today)

/-- A day-of-month clamped to the last valid day of the month, the clamping
policy of the specification. -/
def clampedDayOfMonth (y m day : Nat) : Date :=
  if 1 ≤ day ∧ day ≤ daysInMonth y m then ⟨y, m, day⟩ else ⟨y, m, daysInMonth y m⟩

/-- Candidate of the bare day-of-month form as described by the amended claim
C3: day d of the current month clamped to that month's last valid day; when
that candidate has already passed, day d of the next month if d is a valid day
there, and the last day of the current month otherwise. -/
def amendedBareCandidate (today : Date) (day : Nat) : Date :=
  let c := clampedDayOfMonth today.year today.month day
  if c < today then
    (let fn := get_first_day_next_month today
     if 1 ≤ day ∧ day ≤ daysInMonth fn.year fn.month then ⟨fn.year, fn.month, day⟩
     else ⟨today.year, today.month, daysInMonth today.year today.month⟩)
  else c

theorem bareDayCandidate_eq_amended {T : Date} (hT : T.Valid) (day : Nat) :
    bareDayCandidate T day = amendedBareCandidate T day := by
  obtain ⟨y, m, dd⟩ := T
  have hprev := prevDay_fdnm ⟨y, m, dd⟩ hT
  rw [valid_mk] at hT
  unfold bareDayCandidate amendedBareCandidate clampedDayOfMonth
  dsimp only
  by_cases h1 : 1 ≤ day ∧ day ≤ daysInMonth y m
  · rw [if_pos h1, if_pos h1]
    by_cases h2 : (⟨y, m, day⟩ : Date) < ⟨y, m, dd⟩
    · rw [if_pos h2, if_pos h2]
      by_cases h3 : 1 ≤ day ∧ day ≤ daysInMonth (get_first_day_next_month ⟨y, m, dd⟩).year
          (get_first_day_next_month ⟨y, m, dd⟩).month
      · rw [if_pos h3, if_pos h3]
      · rw [if_neg h3, if_neg h3, hprev]
    · rw [if_neg h2, if_neg h2]
  · rw [if_neg h1, if_neg h1]
    have hnl : ¬ (⟨y, m, daysInMonth y m⟩ : Date) < ⟨y, m, dd⟩ := by
      simp only [date_lt_mk, true_and]
      omega
    rw [if_neg hnl, hprev]

/-! ## Claim theorems -/

theorem weekdays_length : WEEKDAYS.length = 7 := rfl

theorem index_lt_7 {t : List Nat} {i : Nat} (h : listIndexOf WEEKDAYS t = some i) : i < 7 := by
  have := listIndexOf_lt_length h
  rwa [weekdays_length] at this

/-- C6: for every weekday w among the seven weekday names and every valid date
d, get_next_weekday w d succeeds and returns a date r with d at most r, r at
most d plus six days, whose weekday index equals the index of w in WEEKDAYS;
and when d itself falls on w the result is d unchanged (zero offset). -/
theorem C6_next_weekday_window (w : List Nat) (d : Date)
    (hw : w ∈ WEEKDAYS) (hd : d.Valid) :
    (get_next_weekday w d).isSome = true ∧
    ∀ r, get_next_weekday w d = some r →
      d ≤ r ∧ r ≤ addDays 6 d ∧ listIndexOf WEEKDAYS w = some (pyWeekday r) ∧
        (listIndexOf WEEKDAYS w = some (pyWeekday d) → r = d) := by
  have hiS := listIndexOf_isSome_of_mem hw
  obtain ⟨i, hi⟩ := Option.isSome_iff_exists.mp hiS
  obtain ⟨off, hoff6, heq, hwd, hzero⟩ := get_next_weekday_spec hi hd
  constructor
  · rw [heq]
    rfl
  · intro r hr
    rw [heq] at hr
    have hra : r = addDays off d := (Option.some.inj hr).symm
    subst hra
    refine ⟨le_addDays off d, addDays_le_addDays hoff6 d, ?_, ?_⟩
    · rw [hi, hwd]
    · intro hzr
      rw [hi] at hzr
      have : pyWeekday d = i := (Option.some.inj hzr).symm
      rw [hzero this]
      rfl

/-- Witness for C6 at the weekday Monday and the date 2024-03-14 (a Thursday):
the returned date is 2024-03-18. -/
theorem C6_witness :
    (⟨2024, 3, 14⟩ : Date) ≤ ⟨2024, 3, 18⟩ ∧
      (⟨2024, 3, 18⟩ : Date) ≤ addDays 6 ⟨2024, 3, 14⟩ ∧
      listIndexOf WEEKDAYS wMonday = some (pyWeekday ⟨2024, 3, 18⟩) ∧
      (listIndexOf WEEKDAYS wMonday = some (pyWeekday ⟨2024, 3, 14⟩) →
        (⟨2024, 3, 18⟩ : Date) = ⟨2024, 3, 14⟩) :=
  (C6_next_weekday_window wMonday ⟨2024, 3, 14⟩ (by decide) (by decide)).2
    ⟨2024, 3, 18⟩ (by decide)

theorem nth_if_eq (n : Nat) (x : Date) :
    (if n = 1 then x else addDays (7 * (n - 1)) x) = addDays (7 * (n - 1)) x := by
  split_ifs with h
  · subst h
    rfl
  · rfl

/-- C10: for every weekday name among the seven, every valid date today, and
every n at least 1, get_next_every_nth_weekday succeeds, the result lands on
the requested weekday and is never strictly before today, and it is the n-th
occurrence counted from the first day of the current month when that occurrence
has not passed, and otherwise the n-th occurrence counted from the first day of
the following month. -/
theorem C10_nth_weekday_spec (t : List Nat) (T : Date) (n : Nat) {i : Nat}
    (ht : listIndexOf WEEKDAYS t = some i) (hT : T.Valid) (hn : 1 ≤ n) :
    (get_next_every_nth_weekday t T n).isSome = true ∧
    ∀ fa fb r, get_next_weekday t ⟨T.year, T.month, 1⟩ = some fa →
      get_next_weekday t (get_first_day_next_month T) = some fb →
      get_next_every_nth_weekday t T n = some r →
      pyWeekday r = i ∧ ¬ r < T ∧
        ((¬ addDays (7 * (n - 1)) fa < T ∧ r = addDays (7 * (n - 1)) fa) ∨
         (addDays (7 * (n - 1)) fa < T ∧ r = addDays (7 * (n - 1)) fb)) := by
  have h1v : (Date.mk T.year T.month 1).Valid := replace1_valid hT
  have h2v : (get_first_day_next_month T).Valid := fdnm_valid hT
  have hi7 : i < 7 := index_lt_7 ht
  refine ⟨nth_weekday_isSome ht T n, ?_⟩
  intro fa fb r hfa hfb hr
  obtain ⟨off1, _, heq1, hwd1, _⟩ := get_next_weekday_spec ht h1v
  obtain ⟨off2, _, heq2, hwd2, _⟩ := get_next_weekday_spec ht h2v
  have hfa1 : fa = addDays off1 ⟨T.year, T.month, 1⟩ := by
    rw [hfa] at heq1
    exact Option.some.inj heq1
  have hfb2 : fb = addDays off2 (get_first_day_next_month T) := by
    rw [hfb] at heq2
    exact Option.some.inj heq2
  have hfav : fa.Valid := by
    rw [hfa1]
    exact (toDays_addDays h1v off1).2
  have hfbv : fb.Valid := by
    rw [hfb2]
    exact (toDays_addDays h2v off2).2
  have hwfa : pyWeekday fa = i := by rw [hfa1]; exact hwd1
  have hwfb : pyWeekday fb = i := by rw [hfb2]; exact hwd2
  simp only [get_next_every_nth_weekday, hfa, hfb, nth_if_eq] at hr
  split_ifs at hr with hlt
  · have hrr : r = addDays (7 * (n - 1)) fb := (Option.some.inj hr).symm
    subst hrr
    refine ⟨?_, ?_, Or.inr ⟨hlt, rfl⟩⟩
    · rw [pyWeekday_addDays hfbv, hwfb]
      omega
    · have hTfb : T < fb := by
        rw [hfb2]
        exact date_lt_of_lt_of_le (lt_fdnm T) (le_addDays off2 (get_first_day_next_month T))
      have hTr : T < addDays (7 * (n - 1)) fb :=
        date_lt_of_lt_of_le hTfb (le_addDays (7 * (n - 1)) fb)
      exact date_lt_asymm hTr
  · have hrr : r = addDays (7 * (n - 1)) fa := (Option.some.inj hr).symm
    subst hrr
    refine ⟨?_, hlt, Or.inl ⟨hlt, rfl⟩⟩
    rw [pyWeekday_addDays hfav, hwfa]
    omega

/-- Witness for C10 at the weekday Tuesday, today 2024-03-01 and n equal 1:
the result is 2024-03-05, the first Tuesday of March 2024. -/
theorem C10_witness :
    pyWeekday ⟨2024, 3, 5⟩ = 1 ∧ ¬ (⟨2024, 3, 5⟩ : Date) < ⟨2024, 3, 1⟩ ∧
      ((¬ addDays (7 * (1 - 1)) (⟨2024, 3, 5⟩ : Date) < ⟨2024, 3, 1⟩ ∧
          (⟨2024, 3, 5⟩ : Date) = addDays (7 * (1 - 1)) ⟨2024, 3, 5⟩) ∨
       (addDays (7 * (1 - 1)) (⟨2024, 3, 5⟩ : Date) < ⟨2024, 3, 1⟩ ∧
          (⟨2024, 3, 5⟩ : Date) = addDays (7 * (1 - 1)) ⟨2024, 4, 2⟩)) :=
  (C10_nth_weekday_spec wTuesday ⟨2024, 3, 1⟩ 1 (by decide) (by decide) (by decide)).2
    ⟨2024, 3, 5⟩ ⟨2024, 4, 2⟩ ⟨2024, 3, 5⟩ (by decide) (by decide) (by decide)

/-! ## Dispatch lemmas for the resolver -/

theorem get_next_date_from2 {S : List Nat} (T A : Date)
    (h : searchNthDay (strip S) = none) :
    get_next_date S T A = resolveFrom2 (strip S) T A := by
  simp only [get_next_date, h]

theorem resolveFrom2_of_none {f : List Nat} (T A : Date) (h : searchNthMonth f = none) :
    resolveFrom2 f T A = resolveFrom3 f T A := by
  simp only [resolveFrom2, h]

theorem resolveFrom2_of_future {f o t : List Nat} (T A : Date)
    (h : searchNthMonth f = some (o, t)) (hTA : T < A) :
    resolveFrom2 f T A = .ok (some A) := by
  obtain ⟨k, hk⟩ := searchNthMonth_index h
  simp only [resolveFrom2, h, hk, if_pos hTA]

theorem resolveFrom2_of_fallthrough {f o t : List Nat} (T A : Date)
    (h : searchNthMonth f = some (o, t)) (hTA : ¬ T < A) (hd : findNums f = []) :
    resolveFrom2 f T A = resolveFrom3 f T A := by
  obtain ⟨k, hk⟩ := searchNthMonth_index h
  simp only [resolveFrom2, h, hk, if_neg hTA, hd]

theorem resolveFrom3_other_future {f w t : List Nat} (T A : Date)
    (ho : searchOther f = some (w, t)) (hTA : T < A) :
    resolveFrom3 f T A = .ok (some A) := by
  simp only [resolveFrom3, ho, if_pos hTA]

theorem resolveFrom3_other_due {f w t : List Nat} (T A : Date)
    (ho : searchOther f = some (w, t)) (hTA : ¬ T < A)
    {c : Date} (hc : get_next_weekday t T = some c) :
    resolveFrom3 f T A = .ok (some (if dateDiff T A < 7 then addDays 7 c else c)) := by
  simp only [resolveFrom3, ho, if_neg hTA, get_next_every_other_weekday, hc]

theorem resolveFrom3_last {f w t : List Nat} (T A : Date)
    (ho : searchOther f = none) (hl : searchLast f = some (w, t))
    {d4 d5 : Date} (h4 : get_next_every_nth_weekday t T 4 = some d4)
    (h5 : get_next_every_nth_weekday t T 5 = some d5) :
    resolveFrom3 f T A = .ok (some (if d5 < d4 then d5 else d4)) := by
  simp only [resolveFrom3, ho, hl, h4, h5]

theorem resolveFrom3_every {f : List Nat} (T A : Date)
    (ho : searchOther f = none) (hl : searchLast f = none)
    (he : everyMatch f = true) :
    resolveFrom3 f T A = .ok (specEveryResult f T) := by
  simp only [resolveFrom3, ho, hl]
  rw [if_pos he, everyLoop_none f T WEEKDAYS weekdays_index_isSome]
  rfl

theorem resolveFrom3_days {f : List Nat} (T A : Date)
    (ho : searchOther f = none) (hl : searchLast f = none)
    (he : everyMatch f = false) {d : Nat} {ds : List Nat}
    (hd : findNums f = d :: ds) (hT : T.Valid) :
    resolveFrom3 f T A = .ok (dateListMin ((d :: ds).map (amendedBareCandidate T))) := by
  have hne : ¬ everyMatch f = true := by
    rw [he]
    exact Bool.false_ne_true
  simp only [resolveFrom3, ho, hl]
  rw [if_neg hne]
  simp only [hd]
  simp only [bareDayCandidate_eq_amended hT]
  simp only [dateListMin, List.map_cons, foldMinD, List.foldl_map]

/-! ## Concrete rule texts used by the claim instances -/

/-- Code points of the text Every Second Tuesday. -/
def inpEverySecondTuesday : List Nat :=
  [69, 118, 101, 114, 121, 32, 83, 101, 99, 111, 110, 100, 32, 84, 117, 101,
   115, 100, 97, 121]
/-- Code points of the text Every First Tuesday. -/
def inpEveryFirstTuesday : List Nat :=
  [69, 118, 101, 114, 121, 32, 70, 105, 114, 115, 116, 32, 84, 117, 101, 115,
   100, 97, 121]
/-- Code points of the text Every Last Friday. -/
def inpEveryLastFriday : List Nat :=
  [69, 118, 101, 114, 121, 32, 76, 97, 115, 116, 32, 70, 114, 105, 100, 97, 121]
/-- Code points of the text The 30th. -/
def inpThe30th : List Nat := [84, 104, 101, 32, 51, 48, 116, 104]
/-- Code points of the text The 31st. -/
def inpThe31st : List Nat := [84, 104, 101, 32, 51, 49, 115, 116]
/-- Code points of the text Every Other Wednesday. -/
def inpEveryOtherWednesday : List Nat :=
  [69, 118, 101, 114, 121, 32, 79, 116, 104, 101, 114, 32, 87, 101, 100, 110,
   101, 115, 100, 97, 121]
/-- Code points of the text Every Monday. -/
def inpEveryMonday : List Nat :=
  [69, 118, 101, 114, 121, 32, 77, 111, 110, 100, 97, 121]
/-- Code points of the all-lower-case text every first monday. -/
def inpLowerEveryFirstMonday : List Nat :=
  [101, 118, 101, 114, 121, 32, 102, 105, 114, 115, 116, 32, 109, 111, 110,
   100, 97, 121]
/-- Code points of the text banana. -/
def inpBanana : List Nat := [98, 97, 110, 97, 110, 97]
/-- Code points of the text Every and, which matches the every-weekday-list
pattern although it names no weekday. -/
def inpEveryAnd : List Nat := [69, 118, 101, 114, 121, 32, 97, 110, 100]
/-- Code points of the text Every Third Month. -/
def inpEveryThirdMonth : List Nat :=
  [69, 118, 101, 114, 121, 32, 84, 104, 105, 114, 100, 32, 77, 111, 110, 116, 104]

set_option maxRecDepth 20000 in
/-- C1: the claim says the nth-weekday form extracts n as the rank of the
ordinal (First equal 1 up to Fifth equal 5).  The code instead indexes the
capitalised capture into the joined pattern string with str.index, so for the
rule Every Second Tuesday with today 2024-03-01 the code passes n equal 7 and
returns 2024-04-16, while the rank-2 occurrence prescribed by the claim is
2024-03-12; the claim holds only for the ordinal First, as in the scenario
Every First Tuesday resolving to 2024-03-05. -/
theorem C1_nth_day_rank_bug :
    get_next_date inpEverySecondTuesday ⟨2024, 3, 1⟩ ⟨2024, 3, 1⟩ =
      .ok (some ⟨2024, 4, 16⟩) ∧
    get_next_every_nth_weekday wTuesday ⟨2024, 3, 1⟩ 2 = some ⟨2024, 3, 12⟩ ∧
    (⟨2024, 4, 16⟩ : Date) ≠ ⟨2024, 3, 12⟩ ∧
    get_next_date inpEveryFirstTuesday ⟨2024, 3, 1⟩ ⟨2024, 3, 1⟩ =
      .ok (some ⟨2024, 3, 5⟩) :=
  ⟨rfl, rfl, by decide, rfl⟩

set_option maxRecDepth 20000 in
/-- C8: the claim says get_next_date never lets an exception escape and
surfaces unsupported input as the no-match value None.  Unmatched text such as
banana, and a matching every-weekday phrase with no weekday name such as
Every and, do produce None; but the all-lower-case rule every first monday
matches the ignore-case nth-weekday pattern and then crashes, because the raw
capture monday is looked up with the exact, case-sensitive WEEKDAYS.index,
which raises ValueError out of get_next_date. -/
theorem C8_exception_escape :
    get_next_date inpLowerEveryFirstMonday ⟨2024, 3, 1⟩ ⟨2024, 1, 1⟩ = .error () ∧
    get_next_date inpBanana ⟨2024, 3, 1⟩ ⟨2024, 1, 1⟩ = .ok none ∧
    get_next_date inpEveryAnd ⟨2024, 3, 1⟩ ⟨2024, 1, 1⟩ = .ok none :=
  ⟨rfl, rfl, rfl⟩

set_option maxRecDepth 20000 in
/-- C2 counterexample: for the rule Every Last Friday with today 2024-03-01,
the 4th Friday computation gives 2024-03-22 and the 5th gives 2024-03-29, the
5th falls in the same month as the 4th, so the claim as stated prescribes
2024-03-29; the code returns 2024-03-22. -/
theorem C2_counterexample :
    get_next_date inpEveryLastFriday ⟨2024, 3, 1⟩ ⟨2024, 3, 1⟩ =
      .ok (some ⟨2024, 3, 22⟩) ∧
    get_next_every_nth_weekday wFriday ⟨2024, 3, 1⟩ 4 = some ⟨2024, 3, 22⟩ ∧
    get_next_every_nth_weekday wFriday ⟨2024, 3, 1⟩ 5 = some ⟨2024, 3, 29⟩ ∧
    (⟨2024, 3, 29⟩ : Date).month = (⟨2024, 3, 22⟩ : Date).month ∧
    (⟨2024, 3, 22⟩ : Date) ≠ ⟨2024, 3, 29⟩ :=
  ⟨rfl, rfl, rfl, rfl, by decide⟩

/-- C2 amended: for every rule text dispatched to the every-last-weekday form
(the three earlier patterns do not match, the every-last pattern captures a
weekday present in WEEKDAYS), the resolver computes the 4th and 5th occurrence
dates with get_next_every_nth_weekday and returns the EARLIER of the two; in
particular Every Last Friday with today 2024-02-01 resolves to 2024-02-23. -/
theorem C2_last_weekday_amended (S : List Nat) (T A : Date) (w t : List Nat) (i : Nat)
    (h1 : searchNthDay (strip S) = none)
    (h2 : searchNthMonth (strip S) = none)
    (h3 : searchOther (strip S) = none)
    (h4 : searchLast (strip S) = some (w, t))
    (hti : listIndexOf WEEKDAYS t = some i) :
    (get_next_every_nth_weekday t T 4).isSome = true ∧
    (get_next_every_nth_weekday t T 5).isSome = true ∧
    ∀ d4 d5, get_next_every_nth_weekday t T 4 = some d4 →
      get_next_every_nth_weekday t T 5 = some d5 →
      get_next_date S T A = .ok (some (if d5 < d4 then d5 else d4)) := by
  refine ⟨nth_weekday_isSome hti T 4, nth_weekday_isSome hti T 5, ?_⟩
  intro d4 d5 hd4 hd5
  rw [get_next_date_from2 T A h1, resolveFrom2_of_none T A h2,
    resolveFrom3_last T A h3 h4 hd4 hd5]

set_option maxRecDepth 20000 in
/-- Witness for the amended C2: the scenario of the claim, Every Last Friday
with today 2024-02-01, resolves to 2024-02-23 (the 4th Friday; the 5th
computation lands in March). -/
theorem C2_witness :
    get_next_date inpEveryLastFriday ⟨2024, 2, 1⟩ ⟨2024, 2, 1⟩ =
      .ok (some ⟨2024, 2, 23⟩) := by
  have h := (C2_last_weekday_amended inpEveryLastFriday ⟨2024, 2, 1⟩ ⟨2024, 2, 1⟩
    wFriday wFriday 4 (by decide) (by decide) (by decide) (by decide) (by decide)).2.2
    ⟨2024, 2, 23⟩ ⟨2024, 3, 1⟩ (by decide) (by decide)
  exact h.trans rfl

set_option maxRecDepth 20000 in
/-- C3 counterexample: for the rule The 30th with today 2024-01-31, day 30 of
January has passed, and day 30 does not exist in February 2024 computed from
the next-month replace, so the ValueError handler yields the last day of the
CURRENT month, 2024-01-31; the claim as stated prescribes clamping to the last
valid day of the target (next) month, 2024-02-29. -/
theorem C3_counterexample :
    get_next_date inpThe30th ⟨2024, 1, 31⟩ ⟨2024, 1, 1⟩ = .ok (some ⟨2024, 1, 31⟩) ∧
    (⟨2024, 1, 31⟩ : Date) ≠ ⟨2024, 2, 29⟩ :=
  ⟨rfl, by decide⟩

/-- C3 amended: for every rule text dispatched to the bare day-of-month form
(no earlier pattern matches, at least one integer is embedded) and valid
today, each integer d yields the candidate: day d of the current month clamped
to that month's last valid day; if that candidate is strictly before today,
day d of the NEXT month when d is a valid day there, and the LAST DAY OF THE
CURRENT month otherwise; the result is the earliest candidate over all
integers.  In particular The 31st with today 2024-04-10 yields 2024-04-30. -/
theorem C3_bare_day_amended (S : List Nat) (T A : Date) (d : Nat) (ds : List Nat)
    (hT : T.Valid)
    (h1 : searchNthDay (strip S) = none)
    (h2 : searchNthMonth (strip S) = none)
    (h3 : searchOther (strip S) = none)
    (h4 : searchLast (strip S) = none)
    (h5 : everyMatch (strip S) = false)
    (h6 : findNums (strip S) = d :: ds) :
    get_next_date S T A = .ok (dateListMin ((d :: ds).map (amendedBareCandidate T))) := by
  rw [get_next_date_from2 T A h1, resolveFrom2_of_none T A h2]
  exact resolveFrom3_days T A h3 h4 h5 h6 hT

set_option maxRecDepth 20000 in
/-- Witness for the amended C3: the scenario of the claim, The 31st with today
2024-04-10, resolves to 2024-04-30 (April has 30 days, clamped). -/
theorem C3_witness :
    get_next_date inpThe31st ⟨2024, 4, 10⟩ ⟨2024, 4, 10⟩ = .ok (some ⟨2024, 4, 30⟩) := by
  have h := C3_bare_day_amended inpThe31st ⟨2024, 4, 10⟩ ⟨2024, 4, 10⟩ 31 []
    (by decide) (by decide) (by decide) (by decide) (by decide) (by decide) (by decide)
  exact h.trans rfl

/-- C4: for every rule text dispatched to the every-other-weekday form (the
nth-weekday pattern does not match, the nth-month form does not resolve, the
every-other pattern captures a weekday present in WEEKDAYS) with anchor at most
today, the resolver returns the next occurrence of the weekday on or after
today plus seven extra days exactly when fewer than seven days have elapsed
since the anchor, and that next occurrence unchanged otherwise. -/
theorem C4_every_other_weekday (S : List Nat) (T A : Date) (w t : List Nat) (i : Nat)
    (h1 : searchNthDay (strip S) = none)
    (h2 : searchNthMonth (strip S) = none ∨ findNums (strip S) = [])
    (h3 : searchOther (strip S) = some (w, t))
    (hti : listIndexOf WEEKDAYS t = some i)
    (hAT : A ≤ T) :
    (get_next_weekday t T).isSome = true ∧
    ∀ c, get_next_weekday t T = some c →
      get_next_date S T A = .ok (some (if dateDiff T A < 7 then addDays 7 c else c)) := by
  have hnlt : ¬ T < A := date_not_lt_of_le hAT
  constructor
  · rw [get_next_weekday_isSome, hti]
    rfl
  · intro c hc
    rw [get_next_date_from2 T A h1]
    have hstep : resolveFrom2 (strip S) T A = resolveFrom3 (strip S) T A := by
      rcases h2 with h2 | h2
      · exact resolveFrom2_of_none T A h2
      · cases hm : searchNthMonth (strip S) with
        | none => exact resolveFrom2_of_none T A hm
        | some p =>
          obtain ⟨o, ot⟩ := p
          exact resolveFrom2_of_fallthrough T A hm hnlt h2
    rw [hstep, resolveFrom3_other_due T A h3 hnlt hc]

set_option maxRecDepth 20000 in
/-- Witness for C4: the scenario of the claim, Every Other Wednesday with
anchor equal to today 2024-03-14 (zero days elapsed), resolves to the next
Wednesday 2024-03-20 plus seven days, that is 2024-03-27. -/
theorem C4_witness :
    get_next_date inpEveryOtherWednesday ⟨2024, 3, 14⟩ ⟨2024, 3, 14⟩ =
      .ok (some (addDays 7 ⟨2024, 3, 20⟩)) := by
  have h := (C4_every_other_weekday inpEveryOtherWednesday ⟨2024, 3, 14⟩ ⟨2024, 3, 14⟩
    wWednesday wWednesday 2 (by decide) (Or.inl (by decide)) (by decide) (by decide)
    (by decide)).2 ⟨2024, 3, 20⟩ (by decide)
  exact h.trans rfl

/-- C5: for every rule text dispatched to the nth-month form or to the
every-other-weekday form (under the fixed priority order) with anchor strictly
after today, the resolver returns the anchor unchanged, and re-resolving with
the same text, the same today and the returned date as the new anchor returns
that same date again. -/
theorem C5_future_anchor_idempotent (S : List Nat) (T A : Date)
    (h1 : searchNthDay (strip S) = none)
    (h2 : (searchNthMonth (strip S)).isSome = true ∨
          (searchNthMonth (strip S) = none ∧ (searchOther (strip S)).isSome = true))
    (hTA : T < A) :
    get_next_date S T A = .ok (some A) ∧
    ∀ B, get_next_date S T A = .ok (some B) → get_next_date S T B = .ok (some B) := by
  have hmain : get_next_date S T A = .ok (some A) := by
    rw [get_next_date_from2 T A h1]
    rcases h2 with h2 | ⟨h2, h3⟩
    · obtain ⟨p, hp⟩ := Option.isSome_iff_exists.mp h2
      obtain ⟨o, ot⟩ := p
      exact resolveFrom2_of_future T A hp hTA
    · rw [resolveFrom2_of_none T A h2]
      obtain ⟨p, hp⟩ := Option.isSome_iff_exists.mp h3
      obtain ⟨w0, t0⟩ := p
      exact resolveFrom3_other_future T A hp hTA
  refine ⟨hmain, ?_⟩
  intro B hB
  rw [hmain] at hB
  have h1' := Except.ok.inj hB
  have h2' := Option.some.inj h1'
  rw [← h2']
  exact hmain

set_option maxRecDepth 20000 in
/-- Witness for C5: the rule Every Third Month with today 2024-03-01 and the
future anchor 2024-06-15 resolves to the anchor unchanged. -/
theorem C5_witness :
    get_next_date inpEveryThirdMonth ⟨2024, 3, 1⟩ ⟨2024, 6, 15⟩ =
      .ok (some ⟨2024, 6, 15⟩) :=
  (C5_future_anchor_idempotent inpEveryThirdMonth ⟨2024, 3, 1⟩ ⟨2024, 6, 15⟩
    (by decide) (Or.inl (by decide)) (by decide)).1

/-- C7: for every rule text dispatched to the every-weekday-list form (no
earlier pattern matches and the anchored every-list pattern matches), the
resolver computes the next occurrence on or after today of each weekday name
contained case-insensitively in the phrase and returns the earliest across all
matches (and the None result when no weekday name occurs).  The witness
discharges, for the rule Every Monday, the hypothesis that the nth-weekday
pattern does not match: the contiguous ordinal-weekday pattern never fires on
that text. -/
theorem C7_every_weekday_list (S : List Nat) (T A : Date)
    (h1 : searchNthDay (strip S) = none)
    (h2 : searchNthMonth (strip S) = none)
    (h3 : searchOther (strip S) = none)
    (h4 : searchLast (strip S) = none)
    (h5 : everyMatch (strip S) = true) :
    get_next_date S T A = .ok (specEveryResult (strip S) T) := by
  rw [get_next_date_from2 T A h1, resolveFrom2_of_none T A h2]
  exact resolveFrom3_every T A h3 h4 h5

set_option maxRecDepth 20000 in
/-- Witness for C7: the scenario of the claim, Every Monday with today
2024-03-14 (a Thursday), resolves to 2024-03-18. -/
theorem C7_witness :
    get_next_date inpEveryMonday ⟨2024, 3, 14⟩ ⟨2024, 1, 1⟩ =
      .ok (some ⟨2024, 3, 18⟩) := by
  have h := C7_every_weekday_list inpEveryMonday ⟨2024, 3, 14⟩ ⟨2024, 1, 1⟩
    (by decide) (by decide) (by decide) (by decide) (by decide)
  exact h.trans rfl

/-- C9: for every rule text dispatched to the nth-month form (the nth-weekday
pattern does not match, the nth-month pattern matches) that contains no
digits: with a future anchor the resolver still returns the anchor unchanged,
and with a non-future anchor the nth-month form produces no result and
evaluation falls through to the forms after it. -/
theorem C9_nth_month_no_digits (S : List Nat) (T A : Date) (o t : List Nat)
    (h1 : searchNthDay (strip S) = none)
    (h2 : searchNthMonth (strip S) = some (o, t))
    (h3 : findNums (strip S) = []) :
    (T < A → get_next_date S T A = .ok (some A)) ∧
    (¬ T < A → get_next_date S T A = resolveFrom3 (strip S) T A) := by
  constructor
  · intro hTA
    rw [get_next_date_from2 T A h1]
    exact resolveFrom2_of_future T A h2 hTA
  · intro hTA
    rw [get_next_date_from2 T A h1]
    exact resolveFrom2_of_fallthrough T A h2 hTA h3

set_option maxRecDepth 20000 in
/-- Witness for C9: the rule Every Third Month with anchor equal to today
2024-03-01 falls through all remaining forms and ends in the no-match result
None. -/
theorem C9_witness :
    get_next_date inpEveryThirdMonth ⟨2024, 3, 1⟩ ⟨2024, 3, 1⟩ = .ok none := by
  have h := (C9_nth_month_no_digits inpEveryThirdMonth ⟨2024, 3, 1⟩ ⟨2024, 3, 1⟩
    wThird wThird (by decide) (by decide) (by decide)).2 (by decide)
  exact h.trans rfl
